import Mathlib

/-!
Verification of the polling/diff/stability engine of `gemini_polling.py`
(`GeminiPollingEngine`).  The Python source is translated into a shallow
embedding: pure helpers (`detect_gemini_trigger`, `highlight_gemini_content`)
become functions on `String`/`List Char`, and the mutable loop state of
`GeminiPollingEngine.run` becomes an explicit `EngineState` threaded through a
per-cycle step function.  End-times are the ISO strings the Python code
compares with `>`, modelled by the lexicographic order on `String`.
-/

namespace GeminiPolling

/-! ## Trigger detection (`detect_gemini_trigger`, source lines 196-205)

The Python code runs `re.search(r"\bgemini\b", text, re.IGNORECASE)`.
`\b` is a word boundary: the keyword position must not be adjacent to a word
character (letter, digit or underscore).  `scanTrigger` walks the character
list carrying the previous character, exactly as the regex engine tries each
start position from left to right. -/

/-- A regex word character (`\\w`) as CPython classifies it on `str`: any
Unicode-alphanumeric character, plus the underscore.  The classification is
encoded exactly for ASCII and for the Latin-1 supplement (the letters À-ÿ
except × and ÷, the ordinals ª and º, the micro sign µ, and the numeric
characters ² ³ ¹ ¼ ½ ¾), and for the two further characters İ (U+0130) and
ı (U+0131) that take part in the keyword's case-equivalence class; every
character listed here is a genuine Python word character, and the whole-word
theorems below only consult the classification at such characters. -/
def isWordChar (c : Char) : Bool :=
  c.isAlphanum || c == '_' ||
  (192 ≤ c.toNat && c.toNat ≤ 255 && c.toNat != 215 && c.toNat != 247) ||
  c == 'ª' || c == 'µ' || c == 'º' || c == '²' || c == '³' || c == '¹' ||
  c == '¼' || c == '½' || c == '¾' || c == 'İ' || c == 'ı'

/-- A word boundary holds at a position whose neighbouring character is absent
(text edge) or is not a word character. -/
def boundary : Option Char → Bool
  | none => true
  | some c => !(isWordChar c)

/-- Characters matching the pattern letter `g` under `re.IGNORECASE`: CPython
compares the input character's simple lowercase with the lowercased literal,
and in the whole Unicode database only G has simple lowercase g, so comparing
the ASCII lowercase is exact. -/
def matchesG (c : Char) : Bool := c.toLower == 'g'

/-- Characters matching the pattern letter `e` under `re.IGNORECASE` (only E
has simple lowercase e). -/
def matchesE (c : Char) : Bool := c.toLower == 'e'

/-- Characters matching the pattern letter `m` under `re.IGNORECASE` (only M
has simple lowercase m). -/
def matchesM (c : Char) : Bool := c.toLower == 'm'

/-- Characters matching the pattern letter `n` under `re.IGNORECASE` (only N
has simple lowercase n). -/
def matchesN (c : Char) : Bool := c.toLower == 'n'

/-- Characters matching the pattern letter `i` under `re.IGNORECASE`: CPython
compiles this literal to the case-equivalence set {i, ı} and accepts an input
character whose simple lowercase lies in the set, i.e. exactly i, I,
İ (U+0130, whose simple lowercase is i) and ı (U+0131). -/
def matchesI (c : Char) : Bool := c.toLower == 'i' || c == 'İ' || c == 'ı'

/-- Does `l` start with the keyword `gemini` (under the engine's IGNORECASE
matching), followed by a word boundary?  This is the regex body `gemini\\b`
anchored at the head. -/
def geminiAt : List Char → Bool
  | c0 :: c1 :: c2 :: c3 :: c4 :: c5 :: rest =>
      matchesG c0 && matchesE c1 && matchesM c2 &&
      matchesI c3 && matchesN c4 && matchesI c5 &&
      boundary rest.head?
  | _ => false

/-- Left-to-right scan for `\\bgemini\\b`, carrying the previous character so
the leading word boundary can be tested. -/
def scanTrigger : Option Char → List Char → Bool
  | _, [] => false
  | prev, c :: cs => (boundary prev && geminiAt (c :: cs)) || scanTrigger (some c) cs

/-- Embeds `GeminiPollingEngine.detect_gemini_trigger`.  The argument is optional
because the Python parameter may be `None`; `if not text` rejects both `None`
and the empty string. -/
def detect_gemini_trigger (text : Option String) : Bool :=
  match text with
  | none => false
  | some t => if t = "" then false else scanTrigger none t.data

/-! ## Highlighting (`highlight_gemini_content`, source lines 207-228)

`re.sub(r"\b(gemini)\b", replace, content, flags=re.IGNORECASE)` replaces each
non-overlapping match, left to right, by `**` ++ matched text ++ `**`,
preserving the original casing.  After a match the scan resumes right after
the matched characters, so the previous character for the next boundary test
is the final matched character. -/

/-- One pass of `re.sub(r"\b(gemini)\b", ...)` over a character list. -/
def highlightGo : Option Char → List Char → List Char
  | _, [] => []
  | prev, c0 :: c1 :: c2 :: c3 :: c4 :: c5 :: rest =>
    if boundary prev && geminiAt (c0 :: c1 :: c2 :: c3 :: c4 :: c5 :: rest) then
      '*' :: '*' :: c0 :: c1 :: c2 :: c3 :: c4 :: c5 :: '*' :: '*' ::
        highlightGo (some c5) rest
    else
      c0 :: highlightGo (some c0) (c1 :: c2 :: c3 :: c4 :: c5 :: rest)
  | _, c0 :: cs => c0 :: highlightGo (some c0) cs

/-- Embeds `GeminiPollingEngine.highlight_gemini_content`: falsy (empty) content is
returned unchanged, otherwise every whole-word keyword match is wrapped in
markdown bold markers. -/
def highlight_gemini_content (content : String) : String :=
  if content = "" then content else ⟨highlightGo none content.data⟩

/-! ## Engine data model (source lines 120-150 and 391-499)

The mutable variables of `GeminiPollingEngine.run` (`last_lifelogs`,
`last_stable_end_time`, `backoff`) together with the engine field
`processed_gemini_triggers` form the state threaded through poll cycles.
`last_lifelogs` is a Python dict `lifelog_id -> {content, endTime,
stable_count}`; it is embedded as an insertion-ordered association list, with
lookup returning the first binding (Python dicts keep insertion order and one
binding per key). -/

/-- Lexicographic comparison of character lists by code point, mirroring
Python's `<` on `str` (used by the source through `end_time > ...`). -/
def charsLt : List Char → List Char → Bool
  | _, [] => false
  | [], _ :: _ => true
  | a :: as, b :: bs => if a < b then true else if a = b then charsLt as bs else false

/-- Python's `a < b` on the strings the engine compares. -/
def strLt (a b : String) : Bool := charsLt a.data b.data

/-- The comparison `charsLt` agrees with the lexicographic strict order on `List Char`. -/
theorem charsLt_iff : ∀ l1 l2 : List Char, charsLt l1 l2 = true ↔ l1 < l2 := by
  intro l1
  induction l1 with
  | nil =>
      intro l2
      cases l2 with
      | nil => exact iff_of_false (by simp [charsLt]) (List.Lex.not_nil_right _ _)
      | cons b bs => exact iff_of_true (by simp [charsLt]) List.Lex.nil
  | cons a as ih =>
      intro l2
      cases l2 with
      | nil => exact iff_of_false (by simp [charsLt]) (List.Lex.not_nil_right _ _)
      | cons b bs =>
          simp only [charsLt]
          by_cases hab : a < b
          · rw [if_pos hab]
            exact iff_of_true rfl (List.Lex.rel hab)
          · rw [if_neg hab]
            by_cases heq : a = b
            · subst heq
              rw [if_pos rfl, ih bs]
              exact (List.Lex.cons_iff).symm
            · rw [if_neg heq]
              apply iff_of_false
              · simp
              · intro h
                cases h with
                | cons h => exact heq rfl
                | rel h => exact hab h

/-- The comparison `strLt` agrees with the linear order on `String`. -/
theorem strLt_iff (a b : String) : strLt a b = true ↔ a < b := by
  rw [String.lt_iff_toList_lt]
  exact charsLt_iff a.data b.data

/-- One fetched lifelog entry as consumed by `run`: `lifelog.get("id")`,
`lifelog.get("markdown") or ""`, `lifelog.get("endTime")`,
`lifelog.get("title") or "Limitless Update"`. -/
structure Lifelog where
  id : String
  markdown : String
  endTime : String
  title : String
deriving DecidableEq

/-- The per-entry record stored in `last_lifelogs`:
`{"content": ..., "endTime": ..., "stable_count": ...}`. -/
structure EntryState where
  content : String
  endTime : String
  stable_count : Nat
deriving DecidableEq

/-- Dict lookup `last_lifelogs.get(lifelog_id)`. -/
def alistGet : List (String × EntryState) → String → Option EntryState
  | [], _ => none
  | (k', v) :: rest, k => if k' = k then some v else alistGet rest k

/-- Dict store `last_lifelogs[lifelog_id] = v`: replaces the existing binding
in place, or appends a new one. -/
def alistSet : List (String × EntryState) → String → EntryState → List (String × EntryState)
  | [], k, v => [(k, v)]
  | (k', v') :: rest, k, v =>
      if k' = k then (k, v) :: rest else (k', v') :: alistSet rest k v

/-- The tuple bound to `most_recent_update`:
`(lifelog, prev_content, processed_content, has_gemini_trigger)`. -/
structure Mru where
  lifelog : Lifelog
  prev_content : String
  processed_content : String
  has_gemini_trigger : Bool
deriving DecidableEq

/-- The loop-local accumulators of the `for lifelog in lifelogs` block
(source lines 412-450): the evolving dict, `updated_ids`, and
`most_recent_update`.  `candidates` additionally records, for specification
purposes, every entry that was classified new or changed (exactly the entries
for which the source considers updating `most_recent_update`). -/
structure ClassifyAcc where
  state : List (String × EntryState)
  updated_ids : List String
  mru : Option Mru
  candidates : List Lifelog
deriving DecidableEq

/-- Constant `self.stable_polls_required` (source line 135). -/
def stable_polls_required : Nat := 3

/-- Constant `self.backoff_initial` (source line 133). -/
def backoff_initial : Nat := 5

/-- Constant `self.backoff_max` (source line 134). -/
def backoff_max : Nat := 300

/-- The body of `for lifelog in lifelogs` (source lines 417-450): classify one
entry against the tracked state and update the accumulators. -/
def processLifelog (acc : ClassifyAcc) (l : Lifelog) : ClassifyAcc :=
  let pc := highlight_gemini_content l.markdown
  let trig := detect_gemini_trigger (some l.markdown)
  match alistGet acc.state l.id with
  | none =>
      { state := alistSet acc.state l.id ⟨l.markdown, l.endTime, 1⟩
        updated_ids := l.id :: acc.updated_ids
        mru := some ⟨l, "", pc, trig⟩
        candidates := acc.candidates ++ [l] }
  | some prev =>
      if l.markdown ≠ prev.content ∨ l.endTime ≠ prev.endTime then
        { state := alistSet acc.state l.id ⟨l.markdown, l.endTime, 1⟩
          updated_ids := l.id :: acc.updated_ids
          mru := match acc.mru with
                 | none => some ⟨l, prev.content, pc, trig⟩
                 | some m =>
                     if strLt m.lifelog.endTime l.endTime then
                       some ⟨l, prev.content, pc, trig⟩
                     else acc.mru
          candidates := acc.candidates ++ [l] }
      else
        { state := alistSet acc.state l.id
            ⟨prev.content, prev.endTime, prev.stable_count + 1⟩
          updated_ids := l.id :: acc.updated_ids
          mru := acc.mru
          candidates := acc.candidates }

/-- The whole classification loop of one cycle. -/
def classifyCycle (state : List (String × EntryState)) (logs : List Lifelog) : ClassifyAcc :=
  logs.foldl processLifelog ⟨state, [], none, []⟩

/-- Removal of entries absent from the current fetch (source lines 452-455):
keep exactly the bindings whose key is in `updated_ids`. -/
def cleanupState (acc : ClassifyAcc) : List (String × EntryState) :=
  acc.state.filter (fun kv => acc.updated_ids.contains kv.1)

/-- The key `trigger_id = f"{lifelog_id}:{end_time}:{has_gemini_trigger}"`
(source line 465); Python renders the boolean as `True`/`False`. -/
def triggerId (l : Lifelog) (trig : Bool) : String :=
  l.id ++ ":" ++ l.endTime ++ ":" ++ (if trig then "True" else "False")

/-- The trigger-dedup block (source lines 457-471): given the dedup set and
`most_recent_update`, return the key for which `process_gemini_trigger` is
invoked this cycle (if any) and the updated set.  The key is added to the set
before the downstream action runs. -/
def processTrigger (processed : List String) (mru : Option Mru) :
    Option String × List String :=
  match mru with
  | none => (none, processed)
  | some m =>
      let tid := triggerId m.lifelog m.has_gemini_trigger
      if m.has_gemini_trigger && !(processed.contains tid) then
        (some tid, tid :: processed)
      else
        (none, processed)

/-- The stable entries of the tracked map:
`stable_count >= self.stable_polls_required` (source lines 481-484). -/
def stableEntries (state : List (String × EntryState)) : List (String × EntryState) :=
  state.filter (fun kv => stable_polls_required ≤ kv.2.stable_count)

/-- Python `max(stable_lifelogs, key=lambda x: x[1]["endTime"])`: first
maximal element under the end-time key, `none` on an empty list. -/
def maxByEndTime : List (String × EntryState) → Option (String × EntryState)
  | [] => none
  | x :: xs =>
      some (xs.foldl (fun best y => if strLt best.2.endTime y.2.endTime then y else best) x)

/-- The watermark update (source lines 480-490): when some entry is stable,
take the maximal stable end-time; otherwise `last_stable_end_time` keeps its
previous value. -/
def updateWatermark (wm : Option String) (state : List (String × EntryState)) :
    Option String :=
  match maxByEndTime (stableEntries state) with
  | none => wm
  | some best => some best.2.endTime

/-- Abstract outcome of the downstream actions of one cycle: the gemini-cli
analysis (`run_gemini_cli_query`) and the NTFY notification
(`send_agent_response_notification`). -/
inductive DownstreamOutcome
  | ok
  | cliError
  | cliTimeout
  | emptyResponse
  | sendError
deriving DecidableEq

/-- Embeds `GeminiPollingEngine.process_gemini_trigger` (source lines 269-314) plus
its callees: every failure path (gemini-cli non-zero exit, timeout, missing
binary, empty response, NTFY send error) is caught by a `try/except` inside
the callee chain, so the call always returns normally; the returned flag says
whether a success notification went out, and no engine state is touched. -/
def process_gemini_trigger : DownstreamOutcome → Bool
  | .ok => true
  | _ => false

/-- The state threaded through poll cycles: locals of `run` plus the dedup set
`self.processed_gemini_triggers` (source lines 144-145 and 398-401). -/
structure EngineState where
  last_lifelogs : List (String × EntryState)
  last_stable_end_time : Option String
  backoff : Nat
  processed_gemini_triggers : List String
deriving DecidableEq

/-- State at the top of `run` (source lines 398-401). -/
def initState : EngineState :=
  { last_lifelogs := []
    last_stable_end_time := none
    backoff := backoff_initial
    processed_gemini_triggers := [] }

/-- One cycle's external input: the fetch result (`none` models an exception
escaping `fetch_lifelogs`) and the downstream-action outcome. -/
structure CycleInput where
  fetch : Option (List Lifelog)
  downstream : DownstreamOutcome

/-- Observable per-cycle effects: which dedup key (if any) had
`process_gemini_trigger` invoked, whether a success notification was sent, and
the duration passed to `asyncio.sleep`. -/
structure CycleOutput where
  invoked : Option String
  notified : Bool
  sleep : Nat
deriving DecidableEq

/-- One iteration of the `while True` loop (source lines 405-499).  On a fetch
failure the `except` branch sleeps for the current backoff and doubles it
(capped); on success the cycle classifies, deduplicates the trigger, recomputes
the watermark, sleeps for the current (pre-reset) backoff and then resets the
backoff to its initial value. -/
def stepCycle (s : EngineState) (inp : CycleInput) : EngineState × CycleOutput :=
  match inp.fetch with
  | none =>
      ({ s with backoff := min (s.backoff * 2) backoff_max },
       { invoked := none, notified := false, sleep := s.backoff })
  | some logs =>
      let acc := classifyCycle s.last_lifelogs logs
      let state' := cleanupState acc
      let inv := processTrigger s.processed_gemini_triggers acc.mru
      let notified := match inv.1 with
        | some _ => process_gemini_trigger inp.downstream
        | none => false
      let wm' := updateWatermark s.last_stable_end_time state'
      ({ last_lifelogs := state'
         last_stable_end_time := wm'
         backoff := backoff_initial
         processed_gemini_triggers := inv.2 },
       { invoked := inv.1, notified := notified, sleep := s.backoff })

/-- The per-cycle outputs of running the loop on a list of cycle inputs. -/
def runOutputs (s : EngineState) : List CycleInput → List CycleOutput
  | [] => []
  | inp :: is => (stepCycle s inp).2 :: runOutputs (stepCycle s inp).1 is

/-- The engine state after each cycle of a run. -/
def runStates (s : EngineState) : List CycleInput → List EngineState
  | [] => []
  | inp :: is => (stepCycle s inp).1 :: runStates (stepCycle s inp).1 is

/-- The state after running all given cycles. -/
def runFinal (s : EngineState) : List CycleInput → EngineState
  | [] => s
  | inp :: is => runFinal (stepCycle s inp).1 is

/-- The dedup key whose downstream action is invoked in cycle `n` (if any). -/
def invokedAt (s : EngineState) (inputs : List CycleInput) (n : Nat) : Option String :=
  match (runOutputs s inputs)[n]? with
  | none => none
  | some out => out.invoked

/-! ## Whole-word containment, stated declaratively

`ContainsWholeWordGemini` renders the spec's wording for `has_trigger`: the
text contains the keyword as a whole word, ignoring case — some decomposition
`pre ++ keyword ++ post` whose keyword block lowercases to `gemini` and whose
neighbouring characters (when present) are not word characters. -/

theorem strLt_false_le {a b : String} (h : strLt a b = false) : b ≤ a := by
  apply le_of_not_lt
  intro hlt
  rw [← strLt_iff, h] at hlt
  exact Bool.noConfusion hlt

theorem strLt_true_lt {a b : String} (h : strLt a b = true) : a < b :=
  (strLt_iff a b).mp h

theorem alistGet_set_self (m : List (String × EntryState)) (k : String) (v : EntryState) :
    alistGet (alistSet m k v) k = some v := by
  induction m with
  | nil => simp [alistSet, alistGet]
  | cons kv rest ih =>
      obtain ⟨k0, v0⟩ := kv
      by_cases h : k0 = k
      · subst h; simp [alistSet, alistGet]
      · simp [alistSet, alistGet, h, ih]

theorem alistGet_set_ne (m : List (String × EntryState)) (k : String) (v : EntryState)
    (k' : String) (h : k ≠ k') : alistGet (alistSet m k v) k' = alistGet m k' := by
  induction m with
  | nil => simp [alistSet, alistGet, h]
  | cons kv rest ih =>
      obtain ⟨k0, v0⟩ := kv
      by_cases h0 : k0 = k
      · subst h0; simp [alistSet, alistGet, h]
      · by_cases h1 : k0 = k'
        · subst h1; simp [alistSet, alistGet, h0]
        · simp [alistSet, alistGet, h0, h1, ih]

theorem alistGet_set_isSome (m : List (String × EntryState)) (k : String) (v : EntryState)
    (k' : String) :
    (alistGet (alistSet m k v) k').isSome = true ↔
      k' = k ∨ (alistGet m k').isSome = true := by
  by_cases h : k' = k
  · subst h; simp [alistGet_set_self]
  · rw [alistGet_set_ne m k v k' (fun he => h he.symm)]
    simp [h]

theorem alistGet_filter (m : List (String × EntryState)) (f : String → Bool) (k : String) :
    alistGet (m.filter (fun kv => f kv.1)) k = if f k then alistGet m k else none := by
  induction m with
  | nil => simp [alistGet]
  | cons kv rest ih =>
      obtain ⟨k0, v0⟩ := kv
      by_cases hf : f k0
      · rw [List.filter_cons_of_pos (by simpa using hf)]
        by_cases hk : k0 = k
        · subst hk; simp [alistGet, hf]
        · simp [alistGet, hk, ih]
      · rw [List.filter_cons_of_neg (by simpa using hf)]
        by_cases hk : k0 = k
        · subst hk
          rw [ih]
          simp [alistGet, hf]
        · simp [alistGet, hk, ih]

/-! ## Branch analysis of the per-entry classification -/

/-- The three classification branches of the source loop — new entry, changed
entry, unchanged entry — with their exact effect on each accumulator field.
For a changed entry the effect on `most_recent_update` further splits on the
current selection: absent, or replaced when strictly younger, or kept. -/
theorem processLifelog_cases (acc : ClassifyAcc) (l : Lifelog) :
    (alistGet acc.state l.id = none ∧
      (processLifelog acc l).state = alistSet acc.state l.id ⟨l.markdown, l.endTime, 1⟩ ∧
      (processLifelog acc l).updated_ids = l.id :: acc.updated_ids ∧
      (processLifelog acc l).mru = some ⟨l, "", highlight_gemini_content l.markdown,
        detect_gemini_trigger (some l.markdown)⟩ ∧
      (processLifelog acc l).candidates = acc.candidates ++ [l]) ∨
    (∃ prev, alistGet acc.state l.id = some prev ∧
      (l.markdown ≠ prev.content ∨ l.endTime ≠ prev.endTime) ∧
      (processLifelog acc l).state = alistSet acc.state l.id ⟨l.markdown, l.endTime, 1⟩ ∧
      (processLifelog acc l).updated_ids = l.id :: acc.updated_ids ∧
      (processLifelog acc l).candidates = acc.candidates ++ [l] ∧
      ((acc.mru = none ∧
         (processLifelog acc l).mru = some ⟨l, prev.content,
           highlight_gemini_content l.markdown, detect_gemini_trigger (some l.markdown)⟩) ∨
       (∃ m0, acc.mru = some m0 ∧ strLt m0.lifelog.endTime l.endTime = true ∧
         (processLifelog acc l).mru = some ⟨l, prev.content,
           highlight_gemini_content l.markdown, detect_gemini_trigger (some l.markdown)⟩) ∨
       (∃ m0, acc.mru = some m0 ∧ strLt m0.lifelog.endTime l.endTime = false ∧
         (processLifelog acc l).mru = some m0))) ∨
    (∃ prev, alistGet acc.state l.id = some prev ∧
      l.markdown = prev.content ∧ l.endTime = prev.endTime ∧
      (processLifelog acc l).state =
        alistSet acc.state l.id ⟨prev.content, prev.endTime, prev.stable_count + 1⟩ ∧
      (processLifelog acc l).updated_ids = l.id :: acc.updated_ids ∧
      (processLifelog acc l).mru = acc.mru ∧
      (processLifelog acc l).candidates = acc.candidates) := by
  cases halist : alistGet acc.state l.id with
  | none =>
      left
      refine ⟨rfl, ?_, ?_, ?_, ?_⟩ <;> simp only [processLifelog, halist]
  | some prev =>
      by_cases hc : l.markdown ≠ prev.content ∨ l.endTime ≠ prev.endTime
      · right; left
        refine ⟨prev, rfl, hc, ?_, ?_, ?_, ?_⟩
        · simp only [processLifelog, halist]; rw [if_pos hc]
        · simp only [processLifelog, halist]; rw [if_pos hc]
        · simp only [processLifelog, halist]; rw [if_pos hc]
        · cases hmru : acc.mru with
          | none =>
              left
              refine ⟨rfl, ?_⟩
              simp only [processLifelog, halist, hmru]
              rw [if_pos hc]
          | some m0 =>
              by_cases hlt : strLt m0.lifelog.endTime l.endTime = true
              · right; left
                refine ⟨m0, rfl, hlt, ?_⟩
                simp only [processLifelog, halist, hmru]
                rw [if_pos hc, if_pos hlt]
              · right; right
                refine ⟨m0, rfl, Bool.eq_false_iff.mpr hlt, ?_⟩
                simp only [processLifelog, halist, hmru]
                rw [if_pos hc, if_neg hlt]
      · right; right
        push_neg at hc
        refine ⟨prev, rfl, hc.1, hc.2, ?_, ?_, ?_, ?_⟩ <;>
          · simp only [processLifelog, halist]
            rw [if_neg]
            push_neg
            exact hc

theorem classify_fold_mru_max :
    ∀ (logs : List Lifelog) (acc : ClassifyAcc),
      List.Pairwise (fun a b : Lifelog => a.endTime ≤ b.endTime) logs →
      (∀ l ∈ logs, ∀ c ∈ acc.candidates, c.endTime ≤ l.endTime) →
      ((acc.mru = none ↔ acc.candidates = []) ∧
        (∀ m, acc.mru = some m → m.lifelog ∈ acc.candidates ∧
          ∀ c ∈ acc.candidates, c.endTime ≤ m.lifelog.endTime)) →
      (((logs.foldl processLifelog acc).mru = none ↔
          (logs.foldl processLifelog acc).candidates = []) ∧
        (∀ m, (logs.foldl processLifelog acc).mru = some m →
          m.lifelog ∈ (logs.foldl processLifelog acc).candidates ∧
          ∀ c ∈ (logs.foldl processLifelog acc).candidates,
            c.endTime ≤ m.lifelog.endTime)) := by
  intro logs
  induction logs with
  | nil => intro acc _ _ hinv; exact hinv
  | cons l rest ih =>
      intro acc hsort hge hinv
      rw [List.pairwise_cons] at hsort
      obtain ⟨hlrest, hsort'⟩ := hsort
      have hl_head : ∀ c ∈ acc.candidates, c.endTime ≤ l.endTime :=
        hge l (List.mem_cons_self l rest)
      rw [List.foldl_cons]
      have hext : ∀ c ∈ acc.candidates ++ [l], c.endTime ≤ l.endTime := by
        intro c hc
        rcases List.mem_append.mp hc with hcl | hcl
        · exact hl_head c hcl
        · rw [List.mem_singleton.mp hcl]
      have hge_ext : ∀ l' ∈ rest, ∀ c ∈ acc.candidates ++ [l], c.endTime ≤ l'.endTime := by
        intro l' hl' c hc
        rcases List.mem_append.mp hc with hcl | hcl
        · exact hge l' (List.mem_cons_of_mem l hl') c hcl
        · rw [List.mem_singleton.mp hcl]
          exact hlrest l' hl'
      rcases processLifelog_cases acc l with ⟨hget, hst, hupd, hmru, hcand⟩ |
        ⟨prev, hget, hcond, hst, hupd, hcand, hmru3⟩ |
        ⟨prev, hget, hmd, het, hst, hupd, hmru, hcand⟩
      · -- new entry: most_recent_update overwritten with l
        apply ih _ hsort'
        · intro l' hl' c hc
          rw [hcand] at hc
          exact hge_ext l' hl' c hc
        · rw [hmru, hcand]
          refine ⟨by simp, ?_⟩
          intro m hm
          simp only [Option.some.injEq] at hm
          subst hm
          exact ⟨by simp, hext⟩
      · -- changed entry
        apply ih _ hsort'
        · intro l' hl' c hc
          rw [hcand] at hc
          exact hge_ext l' hl' c hc
        · rw [hcand]
          rcases hmru3 with ⟨hnone, hmru⟩ | ⟨m0, hsome, hlt, hmru⟩ | ⟨m0, hsome, hlt, hmru⟩ <;>
            rw [hmru]
          · refine ⟨by simp, ?_⟩
            intro m hm
            simp only [Option.some.injEq] at hm
            subst hm
            exact ⟨by simp, hext⟩
          · refine ⟨by simp, ?_⟩
            intro m hm
            simp only [Option.some.injEq] at hm
            subst hm
            exact ⟨by simp, hext⟩
          · refine ⟨by simp, ?_⟩
            intro m hm
            simp only [Option.some.injEq] at hm
            subst hm
            refine ⟨List.mem_append_left _ (hinv.2 m0 hsome).1, ?_⟩
            intro c hc
            rcases List.mem_append.mp hc with hcl | hcl
            · exact (hinv.2 m0 hsome).2 c hcl
            · have h' := List.mem_singleton.mp hcl
              subst h'
              exact strLt_false_le hlt
      · -- unchanged entry: selection and candidates unchanged
        apply ih _ hsort'
        · intro l' hl' c hc
          rw [hcand] at hc
          exact hge l' (List.mem_cons_of_mem l hl') c hc
        · rw [hmru, hcand]
          exact hinv

/-- C1 (amended): a changed entry only replaces `most_recent_update` when its
end-time is strictly larger, but a newly-seen entry replaces it
unconditionally; consequently, whenever the fetched entries are in
non-decreasing end-time order (the order produced by reversing the API's
descending response), the selected update is a candidate of maximal end-time,
and no update is selected exactly when the cycle has no candidates.  Without
that ordering the selection can miss the maximum (see the counterexample). -/
theorem most_recent_update_max_of_sorted (st : List (String × EntryState))
    (logs : List Lifelog)
    (hsort : List.Pairwise (fun a b : Lifelog => a.endTime ≤ b.endTime) logs) :
    ((classifyCycle st logs).mru = none ↔ (classifyCycle st logs).candidates = []) ∧
    (∀ m, (classifyCycle st logs).mru = some m →
      m.lifelog ∈ (classifyCycle st logs).candidates ∧
      ∀ c ∈ (classifyCycle st logs).candidates, c.endTime ≤ m.lifelog.endTime) :=
  classify_fold_mru_max logs ⟨st, [], none, []⟩ hsort
    (fun _ _ c hc => absurd hc (List.not_mem_nil c))
    ⟨by simp, fun _ hm => Option.noConfusion hm⟩

/-- Tracked state for the C1 counterexample: entry `B` is known with content
`x` and end-time `2`. -/
def mruExState : List (String × EntryState) := [("B", ⟨"x", "2", 1⟩)]

/-- Fetch for the C1 counterexample: first `B` reappears changed (end-time
`2`), then a brand-new entry `A` with the smaller end-time `1`. -/
def mruExLogs : List Lifelog := [⟨"B", "y", "2", "t"⟩, ⟨"A", "a", "1", "t"⟩]

/-- Counterexample to C1 as stated: the cycle's candidates are `B` (end-time
`2`) and `A` (end-time `1`), yet the selected `most_recent_update` is `A`,
whose end-time `1` is not the maximum — the new-entry branch overwrites the
selection without comparing end-times. -/
theorem most_recent_update_counterexample :
    (classifyCycle mruExState mruExLogs).mru.map (fun m => m.lifelog.endTime) = some "1" ∧
    (⟨"B", "y", "2", "t"⟩ : Lifelog) ∈ (classifyCycle mruExState mruExLogs).candidates ∧
    strLt "1" "2" = true :=
  ⟨by decide, by decide, by decide⟩

/-- Sorted two-entry fetch used by the C1 witness. -/
def mruWitLogs : List Lifelog := [⟨"A", "a", "1", "t"⟩, ⟨"B", "b", "2", "t"⟩]

theorem mruWit_pairwise :
    List.Pairwise (fun a b : Lifelog => a.endTime ≤ b.endTime) mruWitLogs := by
  constructor
  · intro b hb
    rw [List.mem_singleton.mp hb]
    exact le_of_lt (strLt_true_lt (by decide))
  · constructor
    · intro b hb
      exact absurd hb (List.not_mem_nil b)
    · exact List.Pairwise.nil

/-- Witness for `most_recent_update_max_of_sorted` on a concrete sorted
fetch: the selected update is `B` and it is one of the candidates. -/
theorem most_recent_update_max_of_sorted_witness :
    (classifyCycle [] mruWitLogs).mru = some ⟨⟨"B", "b", "2", "t"⟩, "", "b", false⟩ ∧
    (⟨"B", "b", "2", "t"⟩ : Lifelog) ∈ (classifyCycle [] mruWitLogs).candidates :=
  ⟨by decide,
    ((most_recent_update_max_of_sorted [] mruWitLogs mruWit_pairwise).2
      ⟨⟨"B", "b", "2", "t"⟩, "", "b", false⟩ (by decide)).1⟩


/-! ## C4: per-entry classification -/

theorem contains_iff_mem (l : List String) (a : String) : l.contains a = true ↔ a ∈ l := by
  simp

theorem classify_fold_skip :
    ∀ (logs : List Lifelog) (acc : ClassifyAcc) (k : String),
      (∀ x ∈ logs, x.id ≠ k) →
      alistGet (logs.foldl processLifelog acc).state k = alistGet acc.state k ∧
      (∀ l : Lifelog, l.id = k →
        ((l ∈ (logs.foldl processLifelog acc).candidates) ↔ l ∈ acc.candidates)) := by
  intro logs
  induction logs with
  | nil => intro acc k _; exact ⟨rfl, fun _ _ => Iff.rfl⟩
  | cons x rest ih =>
      intro acc k hk
      have hxk : x.id ≠ k := hk x (List.mem_cons_self x rest)
      have hrest : ∀ y ∈ rest, y.id ≠ k := fun y hy => hk y (List.mem_cons_of_mem x hy)
      rw [List.foldl_cons]
      obtain ⟨ihget, ihcand⟩ := ih (processLifelog acc x) k hrest
      constructor
      · rw [ihget]
        rcases processLifelog_cases acc x with ⟨hget, hst, hupd, hmru, hcand⟩ |
          ⟨prev, hget, hcond, hst, hupd, hcand, hmru3⟩ |
          ⟨prev, hget, hmd, het, hst, hupd, hmru, hcand⟩ <;>
          rw [hst] <;> exact alistGet_set_ne _ _ _ _ hxk
      · intro l hl
        rw [ihcand l hl]
        have hlx : l ≠ x := by
          intro h
          rw [h] at hl
          exact hxk hl
        rcases processLifelog_cases acc x with ⟨hget, hst, hupd, hmru, hcand⟩ |
          ⟨prev, hget, hcond, hst, hupd, hcand, hmru3⟩ |
          ⟨prev, hget, hmd, het, hst, hupd, hmru, hcand⟩ <;>
          rw [hcand] <;> simp [List.mem_append, List.mem_singleton, hlx]

theorem classify_fold_hit :
    ∀ (logs : List Lifelog) (acc : ClassifyAcc) (l : Lifelog),
      l ∈ logs → (logs.map Lifelog.id).Nodup → l ∉ acc.candidates →
      (alistGet acc.state l.id = none →
        alistGet (logs.foldl processLifelog acc).state l.id
          = some ⟨l.markdown, l.endTime, 1⟩ ∧
        l ∈ (logs.foldl processLifelog acc).candidates) ∧
      (∀ p, alistGet acc.state l.id = some p →
        ((l.markdown = p.content ∧ l.endTime = p.endTime) →
          alistGet (logs.foldl processLifelog acc).state l.id
            = some ⟨p.content, p.endTime, p.stable_count + 1⟩ ∧
          l ∉ (logs.foldl processLifelog acc).candidates) ∧
        ((l.markdown ≠ p.content ∨ l.endTime ≠ p.endTime) →
          alistGet (logs.foldl processLifelog acc).state l.id
            = some ⟨l.markdown, l.endTime, 1⟩ ∧
          l ∈ (logs.foldl processLifelog acc).candidates)) := by
  intro logs
  induction logs with
  | nil => intro acc l hl; exact absurd hl (List.not_mem_nil l)
  | cons x rest ih =>
      intro acc l hl hnd hcand0
      rw [List.map_cons, List.nodup_cons] at hnd
      obtain ⟨hxid, hnd'⟩ := hnd
      rw [List.foldl_cons]
      rcases List.mem_cons.mp hl with rfl | hlr
      · -- the entry is processed now; the rest of the fetch has other ids
        have hrestne : ∀ y ∈ rest, y.id ≠ l.id := by
          intro y hy he
          apply hxid
          rw [← he]
          exact List.mem_map_of_mem Lifelog.id hy
        obtain ⟨hskip_get, hskip_cand⟩ :=
          classify_fold_skip rest (processLifelog acc l) l.id hrestne
        rcases processLifelog_cases acc l with ⟨hget, hst, hupd, hmru, hcand⟩ |
          ⟨prev, hget, hcond, hst, hupd, hcand, hmru3⟩ |
          ⟨prev, hget, hmd, het, hst, hupd, hmru, hcand⟩
        · constructor
          · intro _
            constructor
            · rw [hskip_get, hst, alistGet_set_self]
            · rw [hskip_cand l rfl, hcand]
              exact List.mem_append_right _ (List.mem_singleton_self l)
          · intro p hp
            rw [hget] at hp
            exact Option.noConfusion hp
        · constructor
          · intro hnone
            rw [hget] at hnone
            exact Option.noConfusion hnone
          · intro p hp
            rw [hget] at hp
            injection hp with hp
            subst hp
            constructor
            · intro heqq
              rcases hcond with hco | hco
              · exact absurd heqq.1 hco
              · exact absurd heqq.2 hco
            · intro _
              constructor
              · rw [hskip_get, hst, alistGet_set_self]
              · rw [hskip_cand l rfl, hcand]
                exact List.mem_append_right _ (List.mem_singleton_self l)
        · constructor
          · intro hnone
            rw [hget] at hnone
            exact Option.noConfusion hnone
          · intro p hp
            rw [hget] at hp
            injection hp with hp
            subst hp
            constructor
            · intro _
              constructor
              · rw [hskip_get, hst, alistGet_set_self]
              · rw [hskip_cand l rfl, hcand]
                exact hcand0
            · intro hne
              rcases hne with hco | hco
              · exact absurd hmd hco
              · exact absurd het hco
      · -- a different entry is processed first
        have hxl : x.id ≠ l.id := by
          intro he
          apply hxid
          rw [he]
          exact List.mem_map_of_mem Lifelog.id hlr
        have hget_pres : alistGet (processLifelog acc x).state l.id
            = alistGet acc.state l.id := by
          rcases processLifelog_cases acc x with ⟨_, hst, _, _, _⟩ |
            ⟨p, _, _, hst, _, _, _⟩ | ⟨p, _, _, _, hst, _, _, _⟩ <;>
            rw [hst] <;> exact alistGet_set_ne _ _ _ _ hxl
        have hlx : l ≠ x := by
          intro h
          apply hxl
          rw [h]
        have hcand_pres : l ∉ (processLifelog acc x).candidates := by
          rcases processLifelog_cases acc x with ⟨_, _, _, _, hcand⟩ |
            ⟨p, _, _, _, _, hcand, _⟩ | ⟨p, _, _, _, _, _, _, hcand⟩ <;> rw [hcand]
          · intro hmem
            rcases List.mem_append.mp hmem with hm | hm
            · exact hcand0 hm
            · exact hlx (List.mem_singleton.mp hm)
          · intro hmem
            rcases List.mem_append.mp hmem with hm | hm
            · exact hcand0 hm
            · exact hlx (List.mem_singleton.mp hm)
          · exact hcand0
        have hres := ih (processLifelog acc x) l hlr hnd' hcand_pres
        rw [hget_pres] at hres
        exact hres

/-- C4: in every cycle, an entry with an unseen identifier is stored with
consecutive-unchanged count 1 and is a candidate update; an entry whose
content and end-time both match the stored values has its count incremented
by exactly 1 and is not a candidate; an entry differing in content or
end-time is reset to count 1 and is a candidate.  These are the only ways the
count changes, so it is never decremented other than by the reset to 1. -/
theorem classification_cases (st : List (String × EntryState)) (logs : List Lifelog)
    (l : Lifelog) (hnd : (logs.map Lifelog.id).Nodup) (hl : l ∈ logs) :
    (alistGet st l.id = none →
      alistGet (classifyCycle st logs).state l.id = some ⟨l.markdown, l.endTime, 1⟩ ∧
      l ∈ (classifyCycle st logs).candidates) ∧
    (∀ p, alistGet st l.id = some p →
      ((l.markdown = p.content ∧ l.endTime = p.endTime) →
        alistGet (classifyCycle st logs).state l.id
          = some ⟨p.content, p.endTime, p.stable_count + 1⟩ ∧
        l ∉ (classifyCycle st logs).candidates) ∧
      ((l.markdown ≠ p.content ∨ l.endTime ≠ p.endTime) →
        alistGet (classifyCycle st logs).state l.id = some ⟨l.markdown, l.endTime, 1⟩ ∧
        l ∈ (classifyCycle st logs).candidates)) :=
  classify_fold_hit logs ⟨st, [], none, []⟩ l hl hnd (List.not_mem_nil l)

/-- Tracked state for the C4 witness: entry `A` stored with count 2. -/
def c4WitState : List (String × EntryState) := [("A", ⟨"x", "1", 2⟩)]

/-- Fetch for the C4 witness: `A` reappears unchanged. -/
def c4WitLog : Lifelog := ⟨"A", "x", "1", "t"⟩

/-- Witness for `classification_cases`: an unchanged entry has its count
incremented from 2 to 3 and produces no candidate update. -/
theorem classification_cases_witness :
    ([c4WitLog].map Lifelog.id).Nodup ∧ c4WitLog ∈ [c4WitLog] ∧
    alistGet c4WitState c4WitLog.id = some ⟨"x", "1", 2⟩ ∧
    (alistGet (classifyCycle c4WitState [c4WitLog]).state c4WitLog.id
        = some ⟨"x", "1", 3⟩ ∧
      c4WitLog ∉ (classifyCycle c4WitState [c4WitLog]).candidates) :=
  ⟨by decide, by decide, by decide,
    ((classification_cases c4WitState [c4WitLog] c4WitLog (by decide) (by decide)).2
      ⟨"x", "1", 2⟩ (by decide)).1 ⟨rfl, rfl⟩⟩


/-! ## C5: tracked state equals the current fetch -/

theorem processLifelog_updated (acc : ClassifyAcc) (l : Lifelog) :
    (processLifelog acc l).updated_ids = l.id :: acc.updated_ids := by
  rcases processLifelog_cases acc l with ⟨_, _, hupd, _, _⟩ | ⟨p, _, _, _, hupd, _, _⟩ |
    ⟨p, _, _, _, _, hupd, _, _⟩ <;> exact hupd

theorem processLifelog_get_isSome (acc : ClassifyAcc) (l : Lifelog) (k : String) :
    (alistGet (processLifelog acc l).state k).isSome = true ↔
      k = l.id ∨ (alistGet acc.state k).isSome = true := by
  rcases processLifelog_cases acc l with ⟨_, hst, _, _, _⟩ | ⟨p, _, _, hst, _, _, _⟩ |
    ⟨p, _, _, _, hst, _, _, _⟩ <;> rw [hst] <;> exact alistGet_set_isSome _ _ _ _

theorem classify_fold_updated :
    ∀ (logs : List Lifelog) (acc : ClassifyAcc) (k : String),
      k ∈ (logs.foldl processLifelog acc).updated_ids ↔
        k ∈ acc.updated_ids ∨ k ∈ logs.map Lifelog.id := by
  intro logs
  induction logs with
  | nil => intro acc k; simp
  | cons x rest ih =>
      intro acc k
      rw [List.foldl_cons, ih, processLifelog_updated]
      simp only [List.map_cons, List.mem_cons]
      tauto

theorem classify_fold_isSome :
    ∀ (logs : List Lifelog) (acc : ClassifyAcc) (k : String),
      (alistGet (logs.foldl processLifelog acc).state k).isSome = true ↔
        (alistGet acc.state k).isSome = true ∨ k ∈ logs.map Lifelog.id := by
  intro logs
  induction logs with
  | nil => intro acc k; simp
  | cons x rest ih =>
      intro acc k
      rw [List.foldl_cons, ih, processLifelog_get_isSome]
      simp only [List.map_cons, List.mem_cons]
      tauto

theorem cleanup_get (acc : ClassifyAcc) (k : String) :
    alistGet (cleanupState acc) k =
      if acc.updated_ids.contains k then alistGet acc.state k else none :=
  alistGet_filter acc.state (fun x => acc.updated_ids.contains x) k

/-- C5: after a successful cycle the tracked map contains exactly the
identifiers present in that cycle's fetch — identifiers absent from the fetch
are removed — and every stable entry feeding the watermark computation has an
identifier from the current fetch. -/
theorem tracked_state_matches_fetch (s : EngineState) (logs : List Lifelog)
    (o : DownstreamOutcome) :
    (∀ k : String,
      (alistGet (stepCycle s ⟨some logs, o⟩).1.last_lifelogs k).isSome = true ↔
        k ∈ logs.map Lifelog.id) ∧
    (∀ kv ∈ stableEntries (stepCycle s ⟨some logs, o⟩).1.last_lifelogs,
      kv.1 ∈ logs.map Lifelog.id) := by
  have hstate : (stepCycle s ⟨some logs, o⟩).1.last_lifelogs =
      cleanupState (classifyCycle s.last_lifelogs logs) := rfl
  have hupd : ∀ k : String,
      (classifyCycle s.last_lifelogs logs).updated_ids.contains k = true ↔
        k ∈ logs.map Lifelog.id := by
    intro k
    rw [contains_iff_mem]
    refine Iff.trans (classify_fold_updated logs ⟨s.last_lifelogs, [], none, []⟩ k) ?_
    constructor
    · rintro (hc | hc)
      · exact absurd hc (List.not_mem_nil k)
      · exact hc
    · exact Or.inr
  constructor
  · intro k
    rw [hstate, cleanup_get]
    by_cases hc : (classifyCycle s.last_lifelogs logs).updated_ids.contains k = true
    · rw [if_pos hc]
      have hk := (hupd k).mp hc
      apply iff_of_true _ hk
      exact (classify_fold_isSome logs ⟨s.last_lifelogs, [], none, []⟩ k).mpr (Or.inr hk)
    · rw [if_neg hc]
      apply iff_of_false (by simp)
      intro hk
      exact hc ((hupd k).mpr hk)
  · intro kv hkv
    rw [hstate] at hkv
    have h1 := List.mem_filter.mp hkv
    have h2 := List.mem_filter.mp h1.1
    exact (hupd kv.1).mp h2.2

/-- Engine state for the C5 witness: `A` and `B` tracked, both stable. -/
def c5WitState : EngineState :=
  { last_lifelogs := [("A", ⟨"x", "1", 5⟩), ("B", ⟨"y", "2", 4⟩)]
    last_stable_end_time := none
    backoff := backoff_initial
    processed_gemini_triggers := [] }

/-- Fetch for the C5 witness: only `A` is returned, so `B` must be dropped. -/
def c5WitLogs : List Lifelog := [⟨"A", "x", "1", "t"⟩]

/-- Witness for `tracked_state_matches_fetch`: after the cycle the stable
entry `A` (count 6) is present, and its identifier comes from the fetch. -/
theorem tracked_state_matches_fetch_witness :
    ("A", (⟨"x", "1", 6⟩ : EntryState)) ∈
        stableEntries (stepCycle c5WitState ⟨some c5WitLogs, .ok⟩).1.last_lifelogs ∧
    ("A" : String) ∈ c5WitLogs.map Lifelog.id :=
  ⟨by decide,
    (tracked_state_matches_fetch c5WitState c5WitLogs .ok).2
      ("A", ⟨"x", "1", 6⟩) (by decide)⟩


/-! ## C3: the stable watermark -/

theorem foldl_maxBy_spec (xs : List (String × EntryState)) :
    ∀ x : String × EntryState,
      (List.foldl (fun best y => if strLt best.2.endTime y.2.endTime then y else best) x xs = x ∨
        List.foldl (fun best y => if strLt best.2.endTime y.2.endTime then y else best) x xs ∈ xs) ∧
      x.2.endTime ≤
        (List.foldl (fun best y => if strLt best.2.endTime y.2.endTime then y else best) x xs).2.endTime ∧
      ∀ y ∈ xs, y.2.endTime ≤
        (List.foldl (fun best y => if strLt best.2.endTime y.2.endTime then y else best) x xs).2.endTime := by
  induction xs with
  | nil =>
      intro x
      exact ⟨Or.inl rfl, le_rfl, fun y hy => absurd hy (List.not_mem_nil y)⟩
  | cons z zs ih =>
      intro x
      rw [List.foldl_cons]
      by_cases h : strLt x.2.endTime z.2.endTime = true
      · rw [if_pos h]
        obtain ⟨hmem, hle, hall⟩ := ih z
        refine ⟨?_, ?_, ?_⟩
        · rcases hmem with h1 | h1
          · right; rw [h1]; exact List.mem_cons_self z zs
          · right; exact List.mem_cons_of_mem z h1
        · exact le_trans (le_of_lt (strLt_true_lt h)) hle
        · intro y hy
          rcases List.mem_cons.mp hy with rfl | hy'
          · exact hle
          · exact hall y hy'
      · rw [if_neg h]
        obtain ⟨hmem, hle, hall⟩ := ih x
        refine ⟨?_, hle, ?_⟩
        · rcases hmem with h1 | h1
          · left; exact h1
          · right; exact List.mem_cons_of_mem z h1
        · intro y hy
          rcases List.mem_cons.mp hy with rfl | hy'
          · exact le_trans (strLt_false_le (Bool.eq_false_iff.mpr h)) hle
          · exact hall y hy'

theorem maxByEndTime_spec (l : List (String × EntryState)) (e : String × EntryState)
    (he : maxByEndTime l = some e) : e ∈ l ∧ ∀ y ∈ l, y.2.endTime ≤ e.2.endTime := by
  cases l with
  | nil => exact Option.noConfusion he
  | cons x xs =>
      rw [maxByEndTime] at he
      injection he with he
      obtain ⟨hmem, hle, hall⟩ := foldl_maxBy_spec xs x
      rw [he] at hmem hle hall
      constructor
      · rcases hmem with h1 | h1
        · rw [h1]; exact List.mem_cons_self x xs
        · exact List.mem_cons_of_mem x h1
      · intro y hy
        rcases List.mem_cons.mp hy with rfl | hy'
        · exact hle
        · exact hall y hy'

theorem maxByEndTime_eq_none (l : List (String × EntryState)) :
    maxByEndTime l = none ↔ l = [] := by
  cases l with
  | nil => simp [maxByEndTime]
  | cons x xs => simp [maxByEndTime]

theorem updateWatermark_empty (wm : Option String) (st : List (String × EntryState))
    (h : stableEntries st = []) : updateWatermark wm st = wm := by
  rw [updateWatermark, h]
  rfl

theorem updateWatermark_some (wm : Option String) (st : List (String × EntryState))
    (e : String × EntryState) (he : maxByEndTime (stableEntries st) = some e) :
    updateWatermark wm st = some e.2.endTime := by
  rw [updateWatermark, he]

theorem updateWatermark_idem (wm : Option String) (st : List (String × EntryState)) :
    updateWatermark (updateWatermark wm st) st = updateWatermark wm st := by
  cases he : maxByEndTime (stableEntries st) with
  | none => rw [updateWatermark, he, updateWatermark, he]
  | some e => rw [updateWatermark, he, updateWatermark, he]

/-- C3 (amended): after a successful cycle the watermark is recomputed from
the current tracked state: when some tracked entry meets the stability
threshold (3 consecutive unchanged polls), the watermark equals the maximal
stable end-time; when no entry qualifies, the watermark keeps its previous
value rather than becoming none (see the counterexample); recomputing on the
unchanged tracked state is idempotent. -/
theorem stable_watermark_recompute (s : EngineState) (logs : List Lifelog)
    (o : DownstreamOutcome) :
    (stableEntries (stepCycle s ⟨some logs, o⟩).1.last_lifelogs = [] →
      (stepCycle s ⟨some logs, o⟩).1.last_stable_end_time = s.last_stable_end_time) ∧
    (∀ e, maxByEndTime (stableEntries (stepCycle s ⟨some logs, o⟩).1.last_lifelogs)
        = some e →
      e ∈ stableEntries (stepCycle s ⟨some logs, o⟩).1.last_lifelogs ∧
      (∀ x ∈ stableEntries (stepCycle s ⟨some logs, o⟩).1.last_lifelogs,
        x.2.endTime ≤ e.2.endTime) ∧
      (stepCycle s ⟨some logs, o⟩).1.last_stable_end_time = some e.2.endTime) ∧
    (stableEntries (stepCycle s ⟨some logs, o⟩).1.last_lifelogs ≠ [] →
      ∃ e, maxByEndTime (stableEntries (stepCycle s ⟨some logs, o⟩).1.last_lifelogs)
        = some e) ∧
    updateWatermark (stepCycle s ⟨some logs, o⟩).1.last_stable_end_time
        (stepCycle s ⟨some logs, o⟩).1.last_lifelogs
      = (stepCycle s ⟨some logs, o⟩).1.last_stable_end_time := by
  have hwm : (stepCycle s ⟨some logs, o⟩).1.last_stable_end_time =
      updateWatermark s.last_stable_end_time
        ((stepCycle s ⟨some logs, o⟩).1.last_lifelogs) := rfl
  refine ⟨?_, ?_, ?_, ?_⟩
  · intro h
    rw [hwm]
    exact updateWatermark_empty _ _ h
  · intro e he
    obtain ⟨hmem, hall⟩ := maxByEndTime_spec _ e he
    refine ⟨hmem, hall, ?_⟩
    rw [hwm]
    exact updateWatermark_some _ _ e he
  · intro hne
    cases he : maxByEndTime (stableEntries (stepCycle s ⟨some logs, o⟩).1.last_lifelogs) with
    | none => exact absurd ((maxByEndTime_eq_none _).mp he) hne
    | some e => exact ⟨e, rfl⟩
  · exact updateWatermark_idem _ _

/-- Entry for the C3 counterexample, unchanged over three cycles. -/
def c3ExA1 : Lifelog := ⟨"A", "hello", "T1", "t"⟩

/-- Changed version of the entry for the C3 counterexample's fourth cycle. -/
def c3ExA2 : Lifelog := ⟨"A", "hello there", "T2", "t"⟩

/-- Four-cycle trace for the C3 counterexample. -/
def c3ExInputs : List CycleInput :=
  [⟨some [c3ExA1], .ok⟩, ⟨some [c3ExA1], .ok⟩, ⟨some [c3ExA1], .ok⟩, ⟨some [c3ExA2], .ok⟩]

/-- Counterexample to C3 as stated: after the fourth cycle no tracked entry
meets the stability threshold, yet the watermark is `T1`, not none — the
source only overwrites `last_stable_end_time` when the stable set is
nonempty. -/
theorem stable_watermark_counterexample :
    stableEntries (runFinal initState c3ExInputs).last_lifelogs = [] ∧
    (runFinal initState c3ExInputs).last_stable_end_time = some "T1" :=
  ⟨by decide, by decide⟩

/-- Engine state for the C3 witness: one tracked entry one poll short of the
stability threshold. -/
def c3WitState : EngineState :=
  { last_lifelogs := [("A", ⟨"x", "1", 5⟩)]
    last_stable_end_time := none
    backoff := backoff_initial
    processed_gemini_triggers := [] }

/-- Fetch for the C3 witness: the tracked entry reappears unchanged. -/
def c3WitLogs : List Lifelog := [⟨"A", "x", "1", "t"⟩]

/-- Witness for `stable_watermark_recompute`: with a stable entry of end-time
`1`, the cycle sets the watermark to `1`. -/
theorem stable_watermark_recompute_witness :
    maxByEndTime (stableEntries (stepCycle c3WitState ⟨some c3WitLogs, .ok⟩).1.last_lifelogs)
      = some ("A", ⟨"x", "1", 6⟩) ∧
    (stepCycle c3WitState ⟨some c3WitLogs, .ok⟩).1.last_stable_end_time = some "1" :=
  ⟨by decide,
    ((stable_watermark_recompute c3WitState c3WitLogs .ok).2.1 ("A", ⟨"x", "1", 6⟩)
      (by decide)).2.2⟩


/-! ## C6: backoff bounds and transitions -/

/-- C6 (amended): the backoff delay always stays between the initial 5 s and
the maximum 300 s; a failed fetch sleeps the current delay and then doubles it
(capped at the maximum); a successful fetch resets the delay to its initial
value — but the sleep at the end of a successful cycle happens before the
reset and therefore uses the pre-reset value (see the counterexample); the
reset takes effect from the next cycle. -/
theorem backoff_bounds_and_reset (s : EngineState) (inp : CycleInput)
    (h1 : backoff_initial ≤ s.backoff) (h2 : s.backoff ≤ backoff_max) :
    (backoff_initial ≤ (stepCycle s inp).1.backoff ∧
      (stepCycle s inp).1.backoff ≤ backoff_max) ∧
    (inp.fetch = none →
      (stepCycle s inp).1.backoff = min (s.backoff * 2) backoff_max ∧
      (stepCycle s inp).2.sleep = s.backoff) ∧
    (∀ logs, inp.fetch = some logs →
      (stepCycle s inp).1.backoff = backoff_initial ∧
      (stepCycle s inp).2.sleep = s.backoff) := by
  obtain ⟨fetch, o⟩ := inp
  cases fetch with
  | none =>
      refine ⟨⟨?_, ?_⟩, fun _ => ⟨rfl, rfl⟩, fun logs hl => Option.noConfusion hl⟩
      · show backoff_initial ≤ min (s.backoff * 2) backoff_max
        rw [backoff_initial] at h1 ⊢
        rw [backoff_max]
        omega
      · show min (s.backoff * 2) backoff_max ≤ backoff_max
        exact min_le_right _ _
  | some logs =>
      refine ⟨⟨?_, ?_⟩, fun hn => Option.noConfusion hn, fun logs' hl => ⟨rfl, rfl⟩⟩
      · show backoff_initial ≤ backoff_initial
        exact le_rfl
      · show backoff_initial ≤ backoff_max
        rw [backoff_initial, backoff_max]
        omega

/-- Counterexample to C6 as stated: after one failed cycle (sleep 5 s,
backoff doubled to 10 s), the next, successful cycle sleeps 10 s — the
pre-reset value, not the post-reset initial value. -/
theorem backoff_sleep_counterexample :
    (runOutputs initState [⟨none, DownstreamOutcome.ok⟩, ⟨some [], DownstreamOutcome.ok⟩]).map
        CycleOutput.sleep = [5, 10] ∧
    (10 : Nat) ≠ backoff_initial :=
  ⟨by decide, by decide⟩

/-- Witness for `backoff_bounds_and_reset` at the initial state with a failed
fetch: the cycle sleeps the current 5 s and doubles the backoff. -/
theorem backoff_bounds_and_reset_witness :
    backoff_initial ≤ initState.backoff ∧ initState.backoff ≤ backoff_max ∧
    (stepCycle initState ⟨none, DownstreamOutcome.ok⟩).1.backoff
      = min (initState.backoff * 2) backoff_max ∧
    (stepCycle initState ⟨none, DownstreamOutcome.ok⟩).2.sleep = initState.backoff :=
  ⟨by decide, by decide,
    ((backoff_bounds_and_reset initState ⟨none, DownstreamOutcome.ok⟩
      (by decide) (by decide)).2.1 rfl).1,
    ((backoff_bounds_and_reset initState ⟨none, DownstreamOutcome.ok⟩
      (by decide) (by decide)).2.1 rfl).2⟩

/-! ## C7: downstream failures do not affect loop state -/

/-- C7: the engine state after a cycle (tracked entries, watermark, backoff,
dedup set), the invoked dedup key, and the sleep duration are identical
whatever the downstream outcome — gemini-cli error or timeout, empty
response, or notification send error are all caught inside the callee chain
(`process_gemini_trigger`, `run_gemini_cli_query`,
`send_agent_response_notification`), so only the notified flag can differ and
the loop continues unchanged. -/
theorem downstream_failure_state_independent (s : EngineState)
    (fetch : Option (List Lifelog)) (o1 o2 : DownstreamOutcome) :
    (stepCycle s ⟨fetch, o1⟩).1 = (stepCycle s ⟨fetch, o2⟩).1 ∧
    (stepCycle s ⟨fetch, o1⟩).2.invoked = (stepCycle s ⟨fetch, o2⟩).2.invoked ∧
    (stepCycle s ⟨fetch, o1⟩).2.sleep = (stepCycle s ⟨fetch, o2⟩).2.sleep := by
  cases fetch with
  | none => exact ⟨rfl, rfl, rfl⟩
  | some logs => exact ⟨rfl, rfl, rfl⟩

/-! ## C2 and C10: trigger deduplication across cycles -/

/-- The two branches of the trigger-dedup block: either nothing is invoked
and the set is unchanged, or the selected update carries a fresh trigger key,
which is recorded and invoked. -/
theorem processTrigger_cases (processed : List String) (mru : Option Mru) :
    ((processTrigger processed mru).1 = none ∧
      (processTrigger processed mru).2 = processed) ∨
    (∃ m, mru = some m ∧ m.has_gemini_trigger = true ∧
      processed.contains (triggerId m.lifelog m.has_gemini_trigger) = false ∧
      (processTrigger processed mru).1 = some (triggerId m.lifelog m.has_gemini_trigger) ∧
      (processTrigger processed mru).2 =
        triggerId m.lifelog m.has_gemini_trigger :: processed) := by
  cases mru with
  | none => left; exact ⟨rfl, rfl⟩
  | some m =>
      by_cases hc : (m.has_gemini_trigger &&
          !(processed.contains (triggerId m.lifelog m.has_gemini_trigger))) = true
      · right
        have hc' := hc
        rw [Bool.and_eq_true, Bool.not_eq_true'] at hc'
        refine ⟨m, rfl, hc'.1, hc'.2, ?_, ?_⟩ <;>
          · simp only [processTrigger]
            rw [if_pos hc]
      · left
        constructor <;>
          · simp only [processTrigger]
            rw [if_neg hc]

theorem stepCycle_processed_mono (s : EngineState) (inp : CycleInput) (k : String)
    (h : k ∈ s.processed_gemini_triggers) :
    k ∈ (stepCycle s inp).1.processed_gemini_triggers := by
  obtain ⟨fetch, o⟩ := inp
  cases fetch with
  | none => exact h
  | some logs =>
      show k ∈ (processTrigger s.processed_gemini_triggers
        (classifyCycle s.last_lifelogs logs).mru).2
      rcases processTrigger_cases s.processed_gemini_triggers
          (classifyCycle s.last_lifelogs logs).mru with ⟨_, hp⟩ | ⟨m, _, _, _, _, hp⟩ <;>
        rw [hp]
      · exact h
      · exact List.mem_cons_of_mem _ h

theorem stepCycle_invoked_mem (s : EngineState) (inp : CycleInput) (k : String)
    (h : (stepCycle s inp).2.invoked = some k) :
    k ∈ (stepCycle s inp).1.processed_gemini_triggers := by
  obtain ⟨fetch, o⟩ := inp
  cases fetch with
  | none => exact Option.noConfusion h
  | some logs =>
      have h' : (processTrigger s.processed_gemini_triggers
          (classifyCycle s.last_lifelogs logs).mru).1 = some k := h
      show k ∈ (processTrigger s.processed_gemini_triggers
        (classifyCycle s.last_lifelogs logs).mru).2
      rcases processTrigger_cases s.processed_gemini_triggers
          (classifyCycle s.last_lifelogs logs).mru with ⟨hi, hp⟩ | ⟨m, hm, ht, hcont, hi, hp⟩
      · rw [hi] at h'
        exact Option.noConfusion h'
      · rw [hi] at h'
        injection h' with h'
        rw [hp, h']
        exact List.mem_cons_self _ _

theorem stepCycle_invoked_not_mem (s : EngineState) (inp : CycleInput) (k : String)
    (h : (stepCycle s inp).2.invoked = some k) :
    k ∉ s.processed_gemini_triggers := by
  obtain ⟨fetch, o⟩ := inp
  cases fetch with
  | none => exact Option.noConfusion h
  | some logs =>
      have h' : (processTrigger s.processed_gemini_triggers
          (classifyCycle s.last_lifelogs logs).mru).1 = some k := h
      rcases processTrigger_cases s.processed_gemini_triggers
          (classifyCycle s.last_lifelogs logs).mru with ⟨hi, hp⟩ | ⟨m, hm, ht, hcont, hi, hp⟩
      · rw [hi] at h'
        exact Option.noConfusion h'
      · rw [hi] at h'
        injection h' with h'
        rw [← h']
        intro hmem
        rw [← contains_iff_mem, hcont] at hmem
        exact Bool.noConfusion hmem

theorem invokedAt_nil (s : EngineState) (n : Nat) : invokedAt s [] n = none := by
  simp [invokedAt, runOutputs]

theorem invokedAt_zero (s : EngineState) (inp : CycleInput) (is : List CycleInput) :
    invokedAt s (inp :: is) 0 = (stepCycle s inp).2.invoked := by
  simp [invokedAt, runOutputs, List.getElem?_cons_zero]

theorem invokedAt_succ (s : EngineState) (inp : CycleInput) (is : List CycleInput) (n : Nat) :
    invokedAt s (inp :: is) (n + 1) = invokedAt (stepCycle s inp).1 is n := by
  simp only [invokedAt, runOutputs, List.getElem?_cons_succ]

theorem not_invokedAt_of_mem (s : EngineState) (is : List CycleInput) (k : String)
    (h : k ∈ s.processed_gemini_triggers) : ∀ n, invokedAt s is n ≠ some k := by
  induction is generalizing s with
  | nil =>
      intro n
      rw [invokedAt_nil]
      intro hc
      exact Option.noConfusion hc
  | cons inp is ih =>
      intro n
      cases n with
      | zero =>
          rw [invokedAt_zero]
          intro hc
          exact stepCycle_invoked_not_mem s inp k hc h
      | succ n =>
          rw [invokedAt_succ]
          exact ih (stepCycle s inp).1 (stepCycle_processed_mono s inp k h) n

theorem invoked_once_aux (is : List CycleInput) :
    ∀ (s : EngineState) (i j : Nat) (k : String), i < j →
      invokedAt s is i = some k → invokedAt s is j ≠ some k := by
  induction is with
  | nil =>
      intro s i j k _ hi
      rw [invokedAt_nil] at hi
      exact Option.noConfusion hi
  | cons inp is ih =>
      intro s i j k hij hi
      cases i with
      | zero =>
          rw [invokedAt_zero] at hi
          obtain ⟨j', rfl⟩ : ∃ j', j = j' + 1 := ⟨j - 1, by omega⟩
          rw [invokedAt_succ]
          exact not_invokedAt_of_mem _ is k (stepCycle_invoked_mem s inp k hi) j'
      | succ i =>
          obtain ⟨j', rfl⟩ : ∃ j', j = j' + 1 := ⟨j - 1, by omega⟩
          rw [invokedAt_succ] at hi ⊢
          exact ih _ i j' k (by omega) hi

/-- C2: a dedup key already in the processed-triggers set is never invoked in
any cycle of a run, and across every run each key's downstream
trigger-handling action is invoked at most once — once a cycle invokes it, no
later cycle does, no matter how often the same entry recurs. -/
theorem trigger_action_at_most_once (s : EngineState) (inputs : List CycleInput) :
    (∀ k ∈ s.processed_gemini_triggers, ∀ n, invokedAt s inputs n ≠ some k) ∧
    (∀ i j k, i < j → invokedAt s inputs i = some k →
      invokedAt s inputs j ≠ some k) :=
  ⟨fun k hk n => not_invokedAt_of_mem s inputs k hk n,
    fun i j k hij hi => invoked_once_aux inputs s i j k hij hi⟩

/-- Entry whose content holds the trigger keyword, for the C2 witness. -/
def c2WitLog : Lifelog := ⟨"A", "hey Gemini", "1", "t"⟩

/-- Three cycles for the C2 witness: trigger, empty fetch (entry dropped from
tracking), same trigger entry again. -/
def c2WitInputs : List CycleInput :=
  [⟨some [c2WitLog], DownstreamOutcome.ok⟩, ⟨some [], DownstreamOutcome.ok⟩,
   ⟨some [c2WitLog], DownstreamOutcome.ok⟩]

/-- Witness for `trigger_action_at_most_once`: the key invoked in cycle 0 is
not invoked in cycle 2 although the identical trigger entry is re-fetched. -/
theorem trigger_action_at_most_once_witness :
    (0 : Nat) < 2 ∧ invokedAt initState c2WitInputs 0 = some "A:1:True" ∧
    invokedAt initState c2WitInputs 2 ≠ some "A:1:True" :=
  ⟨by decide, by decide,
    (trigger_action_at_most_once initState c2WitInputs).2 0 2 "A:1:True"
      (by decide) (by decide)⟩

theorem runStates_mem_of_mem (is : List CycleInput) :
    ∀ (s : EngineState) (k : String), k ∈ s.processed_gemini_triggers →
      ∀ (n : Nat) (st : EngineState), (runStates s is)[n]? = some st →
        k ∈ st.processed_gemini_triggers := by
  induction is with
  | nil =>
      intro s k _ n st h
      rw [runStates] at h
      simp at h
  | cons inp is ih =>
      intro s k hk n st h
      rw [runStates] at h
      cases n with
      | zero =>
          rw [List.getElem?_cons_zero] at h
          injection h with h
          rw [← h]
          exact stepCycle_processed_mono s inp k hk
      | succ n =>
          rw [List.getElem?_cons_succ] at h
          exact ih _ k (stepCycle_processed_mono s inp k hk) n st h

theorem invokedAt_mem_runStates (is : List CycleInput) :
    ∀ (s : EngineState) (i : Nat) (k : String), invokedAt s is i = some k →
      ∀ (j : Nat) (st : EngineState), i ≤ j → (runStates s is)[j]? = some st →
        k ∈ st.processed_gemini_triggers := by
  induction is with
  | nil =>
      intro s i k hi
      rw [invokedAt_nil] at hi
      exact Option.noConfusion hi
  | cons inp is ih =>
      intro s i k hi j st hij hj
      rw [runStates] at hj
      cases i with
      | zero =>
          rw [invokedAt_zero] at hi
          have hmem := stepCycle_invoked_mem s inp k hi
          cases j with
          | zero =>
              rw [List.getElem?_cons_zero] at hj
              injection hj with hj
              rw [← hj]
              exact hmem
          | succ j =>
              rw [List.getElem?_cons_succ] at hj
              exact runStates_mem_of_mem is _ k hmem j st hj
      | succ i =>
          obtain ⟨j', rfl⟩ : ∃ j', j = j' + 1 := ⟨j - 1, by omega⟩
          rw [invokedAt_succ] at hi
          rw [List.getElem?_cons_succ] at hj
          exact ih _ i k hi j' st (by omega) hj

/-- C10: the dedup key is added to the processed-triggers set before the
downstream action is invoked, so even when that action fails or times out
(any non-ok outcome) the key is in the dedup set of the invoking cycle's
post-state and of every later state, and no later cycle invokes the action
for that key — failed trigger handling is never retried. -/
theorem trigger_recorded_despite_failure (s : EngineState) (inputs : List CycleInput)
    (i : Nat) (k : String) (hi : invokedAt s inputs i = some k) :
    (∀ j st, i ≤ j → (runStates s inputs)[j]? = some st →
      k ∈ st.processed_gemini_triggers) ∧
    (∀ j, i < j → invokedAt s inputs j ≠ some k) :=
  ⟨fun j st hij hj => invokedAt_mem_runStates inputs s i k hi j st hij hj,
    fun j hij => invoked_once_aux inputs s i j k hij hi⟩

/-- Entry whose content holds the trigger keyword, for the C10 witness. -/
def c10WitLog : Lifelog := ⟨"A", "hey Gemini", "1", "t"⟩

/-- Three cycles for the C10 witness: the trigger's downstream action fails
(`sendError`), then an empty fetch, then the same trigger entry again. -/
def c10WitInputs : List CycleInput :=
  [⟨some [c10WitLog], DownstreamOutcome.sendError⟩, ⟨some [], DownstreamOutcome.ok⟩,
   ⟨some [c10WitLog], DownstreamOutcome.ok⟩]

/-- Engine state after the third C10-witness cycle. -/
def c10WitFinal : EngineState :=
  { last_lifelogs := [("A", ⟨"hey Gemini", "1", 1⟩)]
    last_stable_end_time := none
    backoff := backoff_initial
    processed_gemini_triggers := ["A:1:True"] }

/-- Witness for `trigger_recorded_despite_failure`: the downstream action of
cycle 0 fails (no notification ever goes out), yet the key stays recorded in
the state after cycle 2 and is not re-invoked there. -/
theorem trigger_recorded_despite_failure_witness :
    invokedAt initState c10WitInputs 0 = some "A:1:True" ∧
    (runOutputs initState c10WitInputs).map CycleOutput.notified = [false, false, false] ∧
    (runStates initState c10WitInputs)[2]? = some c10WitFinal ∧
    "A:1:True" ∈ c10WitFinal.processed_gemini_triggers ∧
    invokedAt initState c10WitInputs 2 ≠ some "A:1:True" :=
  ⟨by decide, by decide, by decide,
    (trigger_recorded_despite_failure initState c10WitInputs 0 "A:1:True" (by decide)).1
      2 c10WitFinal (by decide) (by decide),
    (trigger_recorded_despite_failure initState c10WitInputs 0 "A:1:True" (by decide)).2
      2 (by decide)⟩

end GeminiPolling
